import Mathlib

/-!
# mytar: a verification development for `SO/Practica1/Mytar/mytar_routines.c`

The C routines `copynFile`, `loadstr`, `readHeader`, `createTar`, `extractTar`
and `listTar` are embedded as Lean functions over an explicit model of `stdio`
streams and of the file system.  The histogram tool `distr.c` of the same
repository is embedded further down, in the namespace `Distribution`.

Modelling conventions.

* A byte is a `Fin 256`.  `getc` yields an `int`: the byte value `0..255`, or `EOF`.
* A stream (`FILE`) is the byte contents of the underlying file together with the
  file position indicator.  Writing past the end of the file zero-fills the gap.
* A `char *` is an `Option`: `none` is the `NULL` pointer, `some s` points to the
  C string whose bytes before the terminating NUL are `s`.
* Functions return `Option`: `none` means that the C execution has no defined
  result (undefined behaviour such as `fclose(NULL)` or signed overflow of an
  `int` counter).  The two `do ... while` loops are driven by a fuel argument that
  the callers set to the number of unread bytes plus one; each iteration consumes
  one byte or is the last one, and `copyLoop_spec`, `loadstrLoop_nul` and
  `loadstrLoop_eof` show that this fuel yields the result.
* The file system gives the contents of the files that can be opened for reading
  and says on which paths `fopen(path, "w")` succeeds; on the others it returns `NULL`.
* A stream opened for reading holds the contents the file had when it was opened,
  and the bytes written to a stream reach the file when the stream is closed.  The
  statements about `createTar` and `extractTar` keep the archive apart from the
  files it is made of, so they do not depend on this choice.
* `malloc` is taken to succeed.  The contents of uninitialised storage (the local
  `int nFiles` of the callers of `readHeader`, the `size` fields of a freshly
  allocated entry table) are parameters of the model.
* `int` is a 32-bit two's complement integer stored little-endian, the
  representation of the producing host.
-/

namespace Mytar

/-! ## Bytes and machine integers -/

/-- One byte of a file. -/
abbrev Byte := Fin 256

/-- The value `EOF` of `stdio.h`. -/
def EOF : Int := -1

/-- The value `INT_MAX` of `limits.h`. -/
def INT_MAX : Int := 2147483647

/-- The value `EXIT_SUCCESS` of `stdlib.h`. -/
def EXIT_SUCCESS : Int := 0

/-- The value `EXIT_FAILURE` of `stdlib.h`. -/
def EXIT_FAILURE : Int := 1

/-- The conversion `(unsigned char) c` of an `int`. -/
def toUChar (c : Int) : Byte := Fin.ofNat (c % 256).toNat

/-- The value of a little-endian sequence of bytes as an unsigned number. -/
def leNat : List Byte → Nat
  | [] => 0
  | b :: bs => b.val + 256 * leNat bs

/-- Reading a 32-bit pattern as a two's complement `int`. -/
def wrapInt (u : Nat) : Int :=
  if u % 4294967296 < 2147483648 then ((u % 4294967296 : Nat) : Int)
  else ((u % 4294967296 : Nat) : Int) - 4294967296

/-- The four bytes of an `int` object, as `fwrite(&x, sizeof(int), 1, f)` emits them. -/
def encodeInt (x : Int) : List Byte :=
  let u := (x % 4294967296).toNat
  [Fin.ofNat (u % 256), Fin.ofNat (u / 256 % 256),
   Fin.ofNat (u / 65536 % 256), Fin.ofNat (u / 16777216 % 256)]

/-- The `int` held by four bytes of storage. -/
def decodeInt (bs : List Byte) : Int := wrapInt (leNat bs)

/-! ## Streams -/

/-- A `stdio` stream: contents of the underlying file and file position indicator. -/
structure FILE where
  data : List Byte
  pos : Nat
deriving DecidableEq

/-- The bytes between the file position indicator and the end of the file. -/
def FILE.unread (f : FILE) : List Byte := f.data.drop f.pos

/-- The call `getc(f)`: the next byte as an `int`, or `EOF` with the position unchanged. -/
def getc (f : FILE) : Int × FILE :=
  match f.data.drop f.pos with
  | [] => (EOF, f)
  | b :: _ => ((b.val : Int), ⟨f.data, f.pos + 1⟩)

/-- The call `putc(c, f)`: store `c` at the file position (zero-filling a gap left
by a seek past the end of the file) and advance the position. -/
def putc (c : Byte) (f : FILE) : FILE :=
  ⟨(f.data ++ List.replicate (f.pos - f.data.length) 0).take f.pos ++ c :: f.data.drop (f.pos + 1),
   f.pos + 1⟩

/-- The call `fwrite(buf, 1, n, f)` for a buffer holding the bytes `bs`. -/
def fwrite (bs : List Byte) (f : FILE) : FILE := bs.foldl (fun g b => putc b g) f

/-- The call `fread(buf, 1, n, f)`: the bytes obtained (fewer than `n` at the end
of the file) and the advanced stream. -/
def fread (n : Nat) (f : FILE) : List Byte × FILE :=
  ((f.data.drop f.pos).take n, ⟨f.data, f.pos + ((f.data.drop f.pos).take n).length⟩)

/-- The call `fread(&x, sizeof(int), 1, f)` on an `int` object currently holding
`old`: the bytes obtained overwrite the front of the object, so a short read
leaves the remaining bytes of `old` in place. -/
def freadInt (f : FILE) (old : Int) : Int × FILE :=
  let r := fread 4 f
  (decodeInt (r.1 ++ (encodeInt old).drop r.1.length), r.2)

/-- The call `fseek(f, off, SEEK_SET)`. -/
def fseekSet (f : FILE) (off : Nat) : FILE := ⟨f.data, off⟩

/-- The call `fseek(f, off, SEEK_CUR)`; a negative resulting position is refused. -/
def fseekCur (f : FILE) (off : Int) : FILE :=
  if 0 ≤ (f.pos : Int) + off then ⟨f.data, ((f.pos : Int) + off).toNat⟩ else f

/-! ## `copynFile` -/

/-- The `do ... while` loop of `copynFile`; the state is `(size, origin, destination)`. -/
def copyLoop (nBytes : Int) : Nat → FILE → FILE → Int → Option (Int × FILE × FILE)
  | 0, _, _, _ => none
  | fuel + 1, origin, destination, size =>
    let r := getc origin
    let c := r.1
    if c = EOF then some (size, r.2, destination)
    else
      let destination := putc (toUChar c) destination
      if INT_MAX ≤ size then none
      else
        let size := size + 1
        if size < nBytes ∧ c ≠ EOF then copyLoop nBytes fuel r.2 destination size
        else some (size, r.2, destination)

/-- The function `copynFile(origin, destination, nBytes)`: the returned `int` and
the two streams afterwards. -/
def copynFile (origin destination : Option FILE) (nBytes : Int) :
    Option (Int × Option FILE × Option FILE) :=
  match origin, destination with
  | some o, some d =>
    (copyLoop nBytes (o.unread.length + 1) o d 0).map fun r => (r.1, some r.2.1, some r.2.2)
  | _, _ => some (-1, origin, destination)

/-! ## `loadstr` -/

/-- The `do ... while` loop of `loadstr`; the state is `(n, size, file)`. -/
def loadstrLoop : Nat → FILE → Int → Option (Int × Int × FILE)
  | 0, _, _ => none
  | fuel + 1, file, size =>
    let r := getc file
    let n := r.1
    if INT_MAX ≤ size then none
    else
      let size := size + 1
      if n ≠ 0 ∧ n ≠ EOF then loadstrLoop fuel r.2 size
      else some (n, size, r.2)

/-- The function `loadstr(file)`: the returned pointer (`none` is `NULL`, `some buf`
the `size` bytes of the allocated buffer) and the stream afterwards. -/
def loadstr (file : FILE) : Option (Option (List Byte) × FILE) :=
  match loadstrLoop (file.unread.length + 1) file 0 with
  | none => none
  | some (n, size, file) =>
    if n = EOF then some (none, file)
    else
      let file := fseekCur file (-size)
      let r := fread size.toNat file
      some (some r.1, r.2)

/-- The C string held by a buffer: its bytes before the first NUL. -/
def cstr (buf : List Byte) : List Byte := buf.takeWhile (fun b => b ≠ 0)

/-! ## The header -/

/-- Modelled from the spec: the entry type `stHeaderEntry` declared in `mytar.h`,
a pair of an owned name (a `char *`) and a 4-byte integer size. -/
structure stHeaderEntry where
  name : Option (List Byte)
  size : Int
deriving DecidableEq

/-- The contents of uninitialised storage: the caller's local `int nFiles` before
`readHeader` fills it, and the `size` field of entry `i` of a fresh table. -/
structure Uninit where
  nFiles : Int
  size : Nat → Int

/-- The `for` loop of `readHeader`, with `k` iterations left and `i` the index of
the entry being read. -/
def readEntries (mem : Uninit) : Nat → Nat → FILE → Option (List stHeaderEntry × FILE)
  | 0, _, tarFile => some ([], tarFile)
  | k + 1, i, tarFile =>
    match loadstr tarFile with
    | none => none
    | some (buf, tarFile) =>
      let r := freadInt tarFile (mem.size i)
      match readEntries mem k (i + 1) r.2 with
      | none => none
      | some (rest, tarFile) => some (⟨buf.map cstr, r.1⟩ :: rest, tarFile)

/-- The function `readHeader(tarFile, &nFiles)`: the returned table pointer, the
value left in `nFiles`, and the stream afterwards. -/
def readHeader (tarFile : FILE) (mem : Uninit) :
    Option (Option (List stHeaderEntry) × Int × FILE) :=
  let r := freadInt tarFile mem.nFiles
  let nFiles := r.1
  match readEntries mem nFiles.toNat 0 r.2 with
  | none => none
  | some (headers, tarFile) => some (some headers, nFiles, tarFile)

/-- The header-writing loop of `createTar` (name with its NUL, then the size). -/
def writeEntries : List stHeaderEntry → FILE → Option FILE
  | [], f => some f
  | h :: rest, f =>
    match h.name with
    | none => none
    | some name => writeEntries rest (fwrite (encodeInt h.size) (fwrite (name ++ [0]) f))

/-- The header-writing step of `createTar`: rewind, write the count, write the entries. -/
def writeHeader (nFiles : Int) (headers : List stHeaderEntry) (f : FILE) : Option FILE :=
  writeEntries headers (fwrite (encodeInt nFiles) (fseekSet f 0))

/-! ## The file system -/

/-- The file system: the contents of each file that can be opened for reading, by
path, and the paths on which `fopen(path, "w")` succeeds (the file can be created, or
exists and may be written). -/
structure FS where
  contents : List Byte → Option (List Byte)
  writable : List Byte → Bool

/-- A file system applied to a path is the contents of the file of that path. -/
instance FS.instCoeFun : CoeFun FS (fun _ => List Byte → Option (List Byte)) := ⟨FS.contents⟩

/-- The file system in which `name` holds `d`. -/
def FS.write (fs : FS) (name : List Byte) (d : List Byte) : FS :=
  ⟨fun n => if n = name then some d else fs n, fs.writable⟩

/-- The call `fopen(name, "r")`; `NULL` when there is no such file. -/
def fopenR (fs : FS) (name : List Byte) : Option FILE :=
  if name = [] then none else (fs name).map fun d => ⟨d, 0⟩

/-- The call `fopen(name, "w")`: `NULL` for the empty path, which names no file, and
for a path that cannot be opened for writing (a missing directory, a read-only file,
a directory); otherwise the file is created or truncated. -/
def fopenW (fs : FS) (name : List Byte) : Option (FILE × FS) :=
  if name = [] then none
  else if fs.writable name then some (⟨[], 0⟩, fs.write name [])
  else none

/-- The call `fclose(f)` on a stream opened for writing on `name`: the bytes
written reach the file. -/
def fcloseW (fs : FS) (name : List Byte) (f : FILE) : FS := fs.write name f.data

/-! ## `createTar` -/

/-- The first loop of `createTar`: the `unsigned int hs` after adding
`strlen(name) + 1 + sizeof(size)` for each name. -/
def headerSize : List (List Byte) → Nat → Nat
  | [], hs => hs
  | name :: rest, hs => headerSize rest ((hs + (name.length + 1) + 4) % 4294967296)

/-- The second loop of `createTar`: dump each input into the archive and record
the count returned by `copynFile` as its size. -/
def copyFiles (fs : FS) : List (List Byte) → FILE → Option (List stHeaderEntry × FILE)
  | [], f => some ([], f)
  | name :: rest, f =>
    match copynFile (fopenR fs name) (some f) INT_MAX with
    | some (size, some _, some f) =>
      match copyFiles fs rest f with
      | none => none
      | some (headers, f) => some (⟨some name, size⟩ :: headers, f)
    | _ => none

/-- The function `createTar(nFiles, fileNames, tarName)` with `nFiles` the length of
`fileNames`: the returned status and the file system afterwards. -/
def createTar (fileNames : List (List Byte)) (tarName : List Byte) (fs : FS) :
    Option (Int × FS) :=
  match fopenW fs tarName with
  | none => none
  | some (f, fs) =>
    let hs := headerSize fileNames 4
    let f := fseekSet f hs
    match copyFiles fs fileNames f with
    | none => none
    | some (headers, f) =>
      match writeHeader fileNames.length headers f with
      | none => none
      | some f => some (EXIT_SUCCESS, fcloseW fs tarName f)

/-- The part of `createTar` before its second loop (lines 121 to 134): the offset
`hs` handed to `fseek`, the archive stream after that call, and the file system. -/
def createTarSeek (fileNames : List (List Byte)) (tarName : List Byte) (fs : FS) :
    Option (Nat × FILE × FS) :=
  match fopenW fs tarName with
  | none => none
  | some (f, fs) =>
    let hs := headerSize fileNames 4
    some (hs, fseekSet f hs, fs)

/-- The part of `createTar` that ends with its second loop (lines 121 to 140): the
offset `hs`, the entry table, the archive stream once the inputs are dumped, and the
file system. -/
def createTarData (fileNames : List (List Byte)) (tarName : List Byte) (fs : FS) :
    Option (Nat × List stHeaderEntry × FILE × FS) :=
  match createTarSeek fileNames tarName fs with
  | none => none
  | some (hs, f, fs) =>
    match copyFiles fs fileNames f with
    | none => none
    | some (headers, f) => some (hs, headers, f, fs)

/-! ## `extractTar` and `listTar` -/

/-- The loop of `extractTar`. -/
def extractFiles : List stHeaderEntry → FILE → FS → Option FS
  | [], _, fs => some fs
  | h :: rest, f, fs =>
    match h.name with
    | none => none
    | some name =>
      match fopenW fs name with
      | none => none
      | some (fi, fs) =>
        match copynFile (some f) (some fi) h.size with
        | some (_, some f, some fi) => extractFiles rest f (fcloseW fs name fi)
        | _ => none

/-- The function `extractTar(tarName)`: the returned status and the file system
afterwards. -/
def extractTar (tarName : List Byte) (fs : FS) (mem : Uninit) : Option (Int × FS) :=
  match fopenR fs tarName with
  | none => none
  | some f =>
    match readHeader f mem with
    | some (some heads, _, f) =>
      match extractFiles heads f fs with
      | none => none
      | some fs => some (EXIT_FAILURE, fs)
    | _ => none

/-- The text printed by `printf("%d", x)`. -/
def fmtInt : Int → List Byte
  | Int.ofNat n => (Nat.toDigits 10 n).map fun c => Fin.ofNat c.toNat
  | Int.negSucc n => 45 :: (Nat.toDigits 10 (n + 1)).map fun c => Fin.ofNat c.toNat

/-- The text printed by `printf("%s %d\n", name, size)`. -/
def fmtLine (name : List Byte) (size : Int) : List Byte :=
  name ++ [32] ++ fmtInt size ++ [10]

/-- The loop of `listTar`: the bytes sent to the standard output. -/
def printEntries : List stHeaderEntry → Option (List Byte)
  | [] => some []
  | h :: rest =>
    match h.name with
    | none => none
    | some name =>
      match printEntries rest with
      | none => none
      | some out => some (fmtLine name h.size ++ out)

/-- The function `listTar(tarName)`: the returned status and the text printed. -/
def listTar (tarName : List Byte) (fs : FS) (mem : Uninit) : Option (Int × List Byte) :=
  match fopenR fs tarName with
  | none => none
  | some f =>
    match readHeader f mem with
    | some (some heads, _, _) =>
      match printEntries heads with
      | none => none
      | some out => some (0, out)
    | _ => none

/-! ## The archive layout of the specification -/

/-- The on-disk form of one header entry: the name bytes, one NUL, the 4-byte size. -/
def entryBytes (e : List Byte × Int) : List Byte := e.1 ++ [0] ++ encodeInt e.2

/-- The on-disk form of a header: the 4-byte count, then the entries in order. -/
def headerBytes (entries : List (List Byte × Int)) : List Byte :=
  encodeInt entries.length ++ entries.flatMap entryBytes

/-- The byte length `4 + Σ (len(name) + 1 + 4)` of the header for the given names. -/
def headerLength (names : List (List Byte)) : Nat :=
  4 + (names.map fun n => n.length + 1 + 4).sum

/-- The in-memory entry for a name and a size. -/
def mkEntry (e : List Byte × Int) : stHeaderEntry := ⟨some e.1, e.2⟩

/-- The header entry of an input file given as a pair of its name and its contents. -/
def fileEntry (p : List Byte × List Byte) : List Byte × Int := (p.1, (p.2.length : Int))

/-! ## Auxiliary notions for the statements -/

/-- The file system holding only the file `name` of `fs`. -/
def FS.only (fs : FS) (name : List Byte) : FS :=
  ⟨fun n => if n = name then fs n else none, fs.writable⟩

/-- The final component of a path, in the words of the specification: the text
after the last `/`. -/
def basename (path : List Byte) : List Byte :=
  path.foldl (fun acc b => if b = 47 then [] else acc ++ [b]) []

/-- The names in the header of the archive written by `createTar`, as `readHeader`
decodes them from the archive file. -/
def storedNames (fileNames : List (List Byte)) (tarName : List Byte) (fs : FS) (mem : Uninit) :
    Option (List (Option (List Byte))) :=
  match createTar fileNames tarName fs with
  | none => none
  | some (_, fs) =>
    match fopenR fs tarName with
    | none => none
    | some f =>
      match readHeader f mem with
      | some (some heads, _, _) => some (heads.map fun h => h.name)
      | _ => none

/-! ## Sample inputs -/

/-- A file system holding `a` with the contents `abc` and the empty file `bb`, in
which every path can be opened for writing. -/
def sampleFS : FS :=
  ⟨fun n => if n = [97] then some [97, 98, 99] else if n = [98, 98] then some [] else none,
   fun _ => true⟩

/-- The files of `sampleFS` in a directory where only the archive `t` can be opened
for writing: the inputs are read-only. -/
def readOnlyFS : FS := ⟨sampleFS.contents, fun n => decide (n = [116])⟩

/-- The two files of `sampleFS`, as pairs of a name and its contents. -/
def sampleFiles : List (List Byte × List Byte) := [([97], [97, 98, 99]), ([98, 98], [])]

/-- Uninitialised storage that happens to hold zeros. -/
def sampleMem : Uninit := ⟨0, fun _ => 0⟩

/-- A file system holding the empty file `e` and `a` with the contents `abc`, in
which every path can be opened for writing. -/
def emptyFirstFS : FS :=
  ⟨fun n => if n = [101] then some [] else if n = [97] then some [97, 98, 99] else none,
   fun _ => true⟩

/-- A file system holding `x` with the contents `hi`, the empty file `z` and `y`
with the contents `!`, in which every path can be opened for writing. -/
def emptyMiddleFS : FS :=
  ⟨fun n => if n = [120] then some [104, 105] else if n = [122] then some []
    else if n = [121] then some [33] else none,
   fun _ => true⟩

/-- The archive of the single file `a` with the contents `abc`, cut after the first
two bytes of the size field. -/
def truncatedArchive : List Byte := [1, 0, 0, 0, 97, 0, 3, 0]

/-- A file system holding only `truncatedArchive`, under the name `t`, in which every
path can be opened for writing. -/
def truncatedFS : FS :=
  ⟨fun n => if n = [116] then some truncatedArchive else none, fun _ => true⟩

/-- A file system without any file, in which every path can be opened for writing. -/
def emptyFS : FS := ⟨fun _ => none, fun _ => true⟩

/-- A file system holding `dir/a` with the contents `abc`, in which every path can be
opened for writing. -/
def dirFS : FS :=
  ⟨fun n => if n = [100, 105, 114, 47, 97] then some [97, 98, 99] else none, fun _ => true⟩

/-- The archive of `a` = `abc` followed by the empty file `bb`. -/
def sampleArchive : List Byte :=
  [2, 0, 0, 0, 97, 0, 3, 0, 0, 0, 98, 98, 0, 0, 0, 0, 0, 97, 98, 99]

end Mytar

/-! # distr: the directory histogram of `SO/Practica2/Examples/3_Distribution/distr.c`

The directory hierarchy that `opendir`, `readdir` and `lstat` show to the program is a
tree.  `lstat` is taken to succeed and path names to fit the `filename` buffer.  The
counters are `int` objects that stay far below `INT_MAX` and are modelled as
integers; the percentages, which are floating-point values, are not part of the
model. -/

namespace Distribution

mutual
/-- A directory: whether `opendir` succeeds on it, and its entries. -/
inductive Dir where
  | mk (readable : Bool) (entries : Entries)
/-- The entries of a directory other than `.` and `..`, in `readdir` order: regular
files with their `st_size`, sub-directories, and entries of any other type. -/
inductive Entries where
  | nil
  | regular (size : Nat) (rest : Entries)
  | subdir (d : Dir) (rest : Entries)
  | other (rest : Entries)
end

/-- The global variables `totalf`, `totald`, `tam` and `num`. -/
structure Globals where
  totalf : Int
  totald : Int
  tam : List Int
  num : List Int
deriving DecidableEq

/-- The globals at program start: zero-initialised, with eleven classes per histogram. -/
def initial : Globals := ⟨0, 0, List.replicate 11 0, List.replicate 11 0⟩

/-- The statement `h[i]++` on a histogram. -/
def incr : List Int → Nat → List Int
  | [], _ => []
  | x :: xs, 0 => (x + 1) :: xs
  | x :: xs, i + 1 => x :: incr xs i

/-- The constant `C10KB`. -/
def C10KB : Nat := 10240

/-- The `readdir` loop of `cnt_tam`. -/
def cntTamLoop : Entries → Globals → Globals
  | .nil, g => g
  | .regular size rest, g =>
    let g := { g with totalf := g.totalf + 1 }
    let n := Mytar.wrapInt (size / C10KB)
    if n < 0 then cntTamLoop rest g
    else if n < 10 then cntTamLoop rest { g with tam := incr g.tam n.toNat }
    else cntTamLoop rest { g with tam := incr g.tam 10 }
  | .subdir _ rest, g => cntTamLoop rest g
  | .other rest, g => cntTamLoop rest g

/-- The function `cnt_tam(dir)`: the returned status and the globals afterwards. -/
def cnt_tam : Dir → Globals → Int × Globals
  | .mk readable entries, g => if readable then (0, cntTamLoop entries g) else (-1, g)

/-- The `readdir` loop of `cnt_num`: the value of `nf` after the loop. -/
def countEntries : Entries → Nat → Nat
  | .nil, nf => nf
  | .regular _ rest, nf => countEntries rest (nf + 1)
  | .subdir _ rest, nf => countEntries rest (nf + 1)
  | .other rest, nf => countEntries rest (nf + 1)

/-- The function `cnt_num(dir)`: the returned status and the globals afterwards. -/
def cnt_num : Dir → Globals → Int × Globals
  | .mk readable entries, g =>
    if readable then
      let nf := countEntries entries 0
      let n := nf / 10
      if n < 10 then (0, { g with num := incr g.num n })
      else (0, { g with num := incr g.num 10 })
    else (-1, g)

mutual
/-- The function `traverse_tree(dir, f)`: the returned status and the globals afterwards. -/
def traverse_tree (f : Dir → Globals → Int × Globals) : Dir → Globals → Int × Globals
  | .mk readable entries, g =>
    if readable then
      let r := f (.mk readable entries) g
      if r.1 = -1 then (-1, r.2)
      else (0, traverseLoop f entries r.2)
    else (-1, g)
/-- The `readdir` loop of `traverse_tree`. -/
def traverseLoop (f : Dir → Globals → Int × Globals) : Entries → Globals → Globals
  | .nil, g => g
  | .regular _ rest, g => traverseLoop f rest g
  | .other rest, g => traverseLoop f rest g
  | .subdir d rest, g =>
    let g := { g with totald := g.totald + 1 }
    let r := traverse_tree f d g
    if r.1 = -1 then r.2 else traverseLoop f rest r.2
end

/-- One printed histogram: the rows `(10*i, 10*i+10, h[i])` for `i < 10`, the count of
the last class, and the total. -/
abbrev Section := List (Int × Int × Int) × Int × Int

/-- The output of one call of `print_report`: the `-t` section and the `-n` section. -/
structure Report where
  tSection : Option Section
  nSection : Option Section
deriving DecidableEq

/-- The arguments of the ten `printf` calls of a `for` loop of `print_report`. -/
def rangeRows (h : List Int) : List (Int × Int × Int) :=
  (List.range 10).map fun (i : Nat) => (10 * (i : Int), 10 * (i : Int) + 10, h.getD i 0)

/-- The function `print_report(dir)`. -/
def print_report (optiont optionn : Bool) (g : Globals) : Report :=
  ⟨if optiont then some (rangeRows g.tam, g.tam.getD 10 0, g.totalf) else none,
   if optionn then some (rangeRows g.num, g.num.getD 10 0, g.totald) else none⟩

/-- The `for` loop of `main` over the directory arguments: the reports printed. -/
def mainLoop (optiont optionn : Bool) : List Dir → Globals → List Report
  | [], _ => []
  | dir :: rest, g =>
    let g := if optiont then { g with totalf := 0 } else g
    let g := { g with totald := 1 }
    let g := (traverse_tree cnt_tam dir g).2
    let g := if optionn then { g with totald := 1 } else g
    let g := (traverse_tree cnt_num dir g).2
    print_report optiont optionn g :: mainLoop optiont optionn rest g

/-- The function `main`, for a command line on which `-t` and `-n` are present as
`optT` and `optN` say and whose remaining arguments name the directories `args`;
`cwd` is the current directory, used when there is no such argument. -/
def main (optT optN : Bool) (args : List Dir) (cwd : Dir) : List Report :=
  let optiont := if !optT && !optN then true else optT
  match args with
  | [] => mainLoop optiont optN [cwd] initial
  | _ => mainLoop optiont optN args initial

/-- The sum of the eleven class counts of a printed histogram. -/
def classSum (s : Section) : Int := (s.1.map fun r => r.2.2).sum + s.2.1

/-- The printed total of a histogram. -/
def printedTotal (s : Section) : Int := s.2.2

/-- A directory holding `n` regular files of no bytes. -/
def plainFiles : Nat → Entries
  | 0 => .nil
  | n + 1 => .regular 0 (plainFiles n)

/-- A directory holding one regular file of 5 bytes. -/
def oneFileDir : Dir := .mk true (.regular 5 .nil)

/-- A directory without entries. -/
def emptyDir : Dir := .mk true .nil

/-- A directory whose only entry is a sub-directory that cannot be opened. -/
def lockedSubdirDir : Dir := .mk true (.subdir (.mk false .nil) .nil)

end Distribution

namespace Mytar

/-! ## Bytes and integers: basic facts -/

theorem toUChar_val (b : Byte) : toUChar (b.val : Int) = b := by
  apply Fin.ext
  have h := b.isLt
  simp only [toUChar, Fin.ofNat]
  omega

theorem byte_ne_EOF (b : Byte) : ((b.val : Nat) : Int) ≠ EOF := by
  simp only [EOF]
  omega

theorem encodeInt_length (x : Int) : (encodeInt x).length = 4 := rfl

theorem decodeInt_encodeInt (x : Int) (h1 : -2147483648 ≤ x) (h2 : x ≤ INT_MAX) :
    decodeInt (encodeInt x) = x := by
  simp only [INT_MAX] at h2
  simp only [decodeInt, encodeInt, leNat, wrapInt, Fin.ofNat]
  split <;> omega

/-! ## Streams: basic facts -/

theorem getc_nil (f : FILE) (h : f.unread = []) : getc f = (EOF, f) := by
  simp only [FILE.unread] at h
  simp only [getc, h]

theorem getc_cons (f : FILE) (b : Byte) (rest : List Byte) (h : f.unread = b :: rest) :
    getc f = ((b.val : Int), ⟨f.data, f.pos + 1⟩) := by
  simp only [FILE.unread] at h
  simp only [getc, h]

theorem unread_succ (f : FILE) (b : Byte) (rest : List Byte) (h : f.unread = b :: rest) :
    FILE.unread ⟨f.data, f.pos + 1⟩ = rest := by
  simp only [FILE.unread] at h ⊢
  have : List.drop (f.pos + 1) f.data = List.drop 1 (List.drop f.pos f.data) := by
    rw [List.drop_drop, Nat.add_comm]
  rw [this, h]
  rfl

theorem unread_add (data : List Byte) (p : Nat) (a rest : List Byte)
    (h : FILE.unread ⟨data, p⟩ = a ++ rest) : FILE.unread ⟨data, p + a.length⟩ = rest := by
  simp only [FILE.unread] at h ⊢
  have : List.drop (p + a.length) data = List.drop a.length (List.drop p data) := by
    rw [List.drop_drop, Nat.add_comm]
  rw [this, h, List.drop_left]

theorem fwrite_nil (f : FILE) : fwrite [] f = f := rfl

theorem fwrite_cons (b : Byte) (bs : List Byte) (f : FILE) :
    fwrite (b :: bs) f = fwrite bs (putc b f) := rfl

theorem fwrite_append (as bs : List Byte) (f : FILE) :
    fwrite (as ++ bs) f = fwrite bs (fwrite as f) := by
  simp only [fwrite, List.foldl_append]

theorem fwrite_pos (bs : List Byte) (f : FILE) : (fwrite bs f).pos = f.pos + bs.length := by
  induction bs generalizing f with
  | nil => rfl
  | cons b bs ih =>
    rw [fwrite_cons, ih]
    simp only [putc, List.length_cons]
    omega

/-- Writing at a position inside the file (or at its end) replaces the bytes there. -/
theorem fwrite_data (bs : List Byte) (f : FILE) (h : f.pos ≤ f.data.length) :
    (fwrite bs f).data = f.data.take f.pos ++ bs ++ f.data.drop (f.pos + bs.length) := by
  induction bs generalizing f with
  | nil => simp [fwrite_nil]
  | cons b bs ih =>
    have hz : f.pos - f.data.length = 0 := by omega
    have hp : (putc b f).pos ≤ (putc b f).data.length := by
      simp only [putc, hz, List.replicate_zero, List.append_nil, List.length_append,
        List.length_take, List.length_cons, List.length_drop]
      omega
    rw [fwrite_cons, ih _ hp]
    simp only [putc, hz, List.replicate_zero, List.append_nil, List.length_cons]
    have e1 : List.take (f.pos + 1) (List.take f.pos f.data ++ b :: List.drop (f.pos + 1) f.data)
        = List.take f.pos f.data ++ [b] := by
      rw [List.take_append_eq_append_take]
      simp only [List.length_take, Nat.min_eq_left h]
      rw [List.take_of_length_le (by simp only [List.length_take]; omega)]
      have : f.pos + 1 - f.pos = 1 := by omega
      rw [this]
      rfl
    have e2 : List.drop (f.pos + 1 + bs.length)
        (List.take f.pos f.data ++ b :: List.drop (f.pos + 1) f.data)
        = List.drop (f.pos + (bs.length + 1)) f.data := by
      rw [List.drop_append_eq_append_drop]
      simp only [List.length_take, Nat.min_eq_left h]
      rw [List.drop_of_length_le (by simp only [List.length_take]; omega)]
      have : f.pos + 1 + bs.length - f.pos = bs.length + 1 := by omega
      rw [this, List.nil_append, List.drop_succ_cons, List.drop_drop]
      congr 1
      omega
    rw [e1, e2]
    simp

/-- Writing after a seek on an empty file: the bytes written start at the seek offset. -/
theorem fwrite_gap (bs : List Byte) (p : Nat) :
    (fwrite bs ⟨[], p⟩).data.drop p = bs ∧
    ((fwrite bs ⟨[], p⟩).data.length = 0 ∨ p ≤ (fwrite bs ⟨[], p⟩).data.length) := by
  cases bs with
  | nil => simp [fwrite_nil]
  | cons b bs =>
    have hp : putc b ⟨[], p⟩ = ⟨List.replicate p 0 ++ [b], p + 1⟩ := by
      simp [putc]
    have hd := fwrite_data bs ⟨List.replicate p 0 ++ [b], p + 1⟩ (by simp)
    have e1 : List.take (p + 1) (List.replicate p (0 : Byte) ++ [b]) = List.replicate p 0 ++ [b] :=
      List.take_of_length_le (by simp)
    have e2 : List.drop (p + 1 + bs.length) (List.replicate p (0 : Byte) ++ [b]) = [] :=
      List.drop_of_length_le (by simp)
    simp only [e1, e2, List.append_nil] at hd
    rw [fwrite_cons, hp, hd]
    constructor
    · rw [List.append_assoc, List.drop_append_eq_append_drop]
      simp
    · right
      simp only [List.length_append, List.length_replicate]
      omega

/-! ## `copynFile`: what the loop copies -/

/-- The loop copies `min (max 1 (nBytes - size)) r` bytes, where `r` is the number of
unread bytes of the origin: the body runs once before `nBytes` is looked at. -/
theorem copyLoop_spec (nBytes : Int) (hn : nBytes ≤ INT_MAX) (bs : List Byte) :
    ∀ (fuel : Nat) (o d : FILE) (size : Int) (k : Nat),
      o.unread = bs → bs.length < fuel → size < INT_MAX →
      k = min (max 1 (nBytes - size)).toNat bs.length →
      copyLoop nBytes fuel o d size
        = some (size + k, ⟨o.data, o.pos + k⟩, fwrite (bs.take k) d) := by
  induction bs with
  | nil =>
    intro fuel o d size k ho hf hs hk
    cases fuel with
    | zero => simp at hf
    | succ fuel =>
      simp only [List.length_nil, Nat.min_zero] at hk
      subst hk
      simp [copyLoop, getc_nil o ho, fwrite_nil]
  | cons b rest ih =>
    intro fuel o d size k ho hf hs hk
    cases fuel with
    | zero => simp at hf
    | succ fuel =>
      have hb := byte_ne_EOF b
      simp only [List.length_cons] at hf hk
      simp only [copyLoop, getc_cons o b rest ho, hb, if_false, toUChar_val, ne_eq,
        not_false_eq_true, and_true]
      have hs' : ¬ INT_MAX ≤ size := by omega
      simp only [hs', if_false]
      by_cases hlt : size + 1 < nBytes
      · simp only [hlt, if_true]
        have hk' : k - 1 = min (max 1 (nBytes - (size + 1))).toNat rest.length := by omega
        rw [ih fuel ⟨o.data, o.pos + 1⟩ (putc b d) (size + 1) (k - 1)
          (unread_succ o b rest ho) (by omega) (by omega) hk']
        have hk1 : k = (k - 1) + 1 := by omega
        have e : List.take k (b :: rest) = b :: List.take (k - 1) rest := by
          rw [hk1, List.take_succ_cons]
          simp
        rw [e, fwrite_cons]
        have e3 : size + 1 + ((k - 1 : Nat) : Int) = size + (k : Int) := by omega
        have e4 : o.pos + 1 + (k - 1) = o.pos + k := by omega
        rw [e3, e4]
      · simp only [hlt, if_false]
        have hk1 : k = 1 := by omega
        subst hk1
        simp [fwrite_cons, fwrite_nil]

theorem copynFile_spec (o d : FILE) (nBytes : Int) (hn : nBytes ≤ INT_MAX) (k : Nat)
    (hk : k = min (max 1 nBytes).toNat o.unread.length) :
    copynFile (some o) (some d) nBytes
      = some ((k : Int), some ⟨o.data, o.pos + k⟩, some (fwrite (o.unread.take k) d)) := by
  have h := copyLoop_spec nBytes hn o.unread (o.unread.length + 1) o d 0 k rfl (by omega)
    (by simp only [INT_MAX]; omega) (by simpa using hk)
  simp only [copynFile, h, Option.map_some', zero_add]

/-- Copying a whole file of fewer than `INT_MAX` bytes with the limit `INT_MAX`. -/
theorem copynFile_whole (c : List Byte) (d : FILE) (hc : (c.length : Int) < INT_MAX) :
    copynFile (some ⟨c, 0⟩) (some d) INT_MAX
      = some ((c.length : Int), some ⟨c, c.length⟩, some (fwrite c d)) := by
  have hu : FILE.unread ⟨c, 0⟩ = c := rfl
  have h := copynFile_spec ⟨c, 0⟩ d INT_MAX (le_refl _) c.length
    (by rw [hu]; simp only [INT_MAX] at hc ⊢; omega)
  rw [h, hu]
  simp

/-! ## `loadstr`: what the scan finds -/

theorem byte_ne_zero (b : Byte) (h : b ≠ 0) : ((b.val : Nat) : Int) ≠ 0 := by
  intro h0
  apply h
  apply Fin.ext
  have : b.val = 0 := by omega
  simpa using this

theorem loadstrLoop_nul (rest : List Byte) (name : List Byte) :
    ∀ (fuel : Nat) (file : FILE) (size : Int),
      file.unread = name ++ 0 :: rest → (0 : Byte) ∉ name → name.length < fuel →
      size + name.length < INT_MAX →
      loadstrLoop fuel file size
        = some (0, size + name.length + 1, ⟨file.data, file.pos + name.length + 1⟩) := by
  induction name with
  | nil =>
    intro fuel file size hu _ hf hs
    cases fuel with
    | zero => simp at hf
    | succ fuel =>
      simp only [List.nil_append] at hu
      have hs' : ¬ INT_MAX ≤ size := by simp only [List.length_nil] at hs; omega
      simp [loadstrLoop, getc_cons file 0 rest hu, hs']
  | cons b name ih =>
    intro fuel file size hu h0 hf hs
    cases fuel with
    | zero => simp at hf
    | succ fuel =>
      simp only [List.cons_append] at hu
      simp only [List.length_cons] at hf hs
      have hb0 : b ≠ 0 := fun h => h0 (by simp [h])
      have hn0 : (0 : Byte) ∉ name := fun h => h0 (List.mem_cons_of_mem _ h)
      have hs' : ¬ INT_MAX ≤ size := by omega
      simp only [loadstrLoop, getc_cons file b _ hu, hs', if_false, ne_eq,
        byte_ne_zero b hb0, byte_ne_EOF b, not_false_eq_true, and_self, if_true]
      rw [ih fuel ⟨file.data, file.pos + 1⟩ (size + 1) (unread_succ file b _ hu) hn0
        (by omega) (by push_cast at hs ⊢; omega)]
      simp only [List.length_cons]
      have e1 : size + 1 + (name.length : Int) + 1 = size + ((name.length + 1 : Nat) : Int) + 1 := by
        push_cast; omega
      have e2 : file.pos + 1 + name.length + 1 = file.pos + (name.length + 1) + 1 := by omega
      rw [e1, e2]

theorem loadstrLoop_eof (bs : List Byte) :
    ∀ (fuel : Nat) (file : FILE) (size : Int),
      file.unread = bs → (0 : Byte) ∉ bs → bs.length < fuel →
      size + bs.length < INT_MAX →
      loadstrLoop fuel file size
        = some (EOF, size + bs.length + 1, ⟨file.data, file.pos + bs.length⟩) := by
  induction bs with
  | nil =>
    intro fuel file size hu _ hf hs
    cases fuel with
    | zero => simp at hf
    | succ fuel =>
      have hs' : ¬ INT_MAX ≤ size := by simp only [List.length_nil] at hs; omega
      simp [loadstrLoop, getc_nil file hu, hs']
  | cons b bs ih =>
    intro fuel file size hu h0 hf hs
    cases fuel with
    | zero => simp at hf
    | succ fuel =>
      simp only [List.length_cons] at hf hs
      have hb0 : b ≠ 0 := fun h => h0 (by simp [h])
      have hn0 : (0 : Byte) ∉ bs := fun h => h0 (List.mem_cons_of_mem _ h)
      have hs' : ¬ INT_MAX ≤ size := by omega
      simp only [loadstrLoop, getc_cons file b _ hu, hs', if_false, ne_eq,
        byte_ne_zero b hb0, byte_ne_EOF b, not_false_eq_true, and_self, if_true]
      rw [ih fuel ⟨file.data, file.pos + 1⟩ (size + 1) (unread_succ file b _ hu) hn0
        (by omega) (by push_cast at hs ⊢; omega)]
      simp only [List.length_cons]
      have e1 : size + 1 + (bs.length : Int) + 1 = size + ((bs.length + 1 : Nat) : Int) + 1 := by
        push_cast; omega
      have e2 : file.pos + 1 + bs.length = file.pos + (bs.length + 1) := by omega
      rw [e1, e2]

theorem loadstr_nul (file : FILE) (name rest : List Byte)
    (hu : file.unread = name ++ 0 :: rest) (h0 : (0 : Byte) ∉ name)
    (hlen : (name.length : Int) < INT_MAX) :
    loadstr file = some (some (name ++ [0]), ⟨file.data, file.pos + name.length + 1⟩) := by
  have h := loadstrLoop_nul rest name (file.unread.length + 1) file 0 hu h0
    (by rw [hu]; simp only [List.length_append, List.length_cons]; omega) (by omega)
  have hE : (0 : Int) ≠ EOF := by simp [EOF]
  simp only [loadstr, h, hE, if_false, zero_add]
  have hseek : fseekCur ⟨file.data, file.pos + name.length + 1⟩ (-((name.length : Int) + 1))
      = ⟨file.data, file.pos⟩ := by
    simp only [fseekCur]
    have : (0 : Int) ≤ ((file.pos + name.length + 1 : Nat) : Int) + -((name.length : Int) + 1) := by
      push_cast; omega
    simp only [this, if_true]
    congr 1
    push_cast
    omega
  have htn : ((name.length : Int) + 1).toNat = name.length + 1 := by omega
  have htake : List.take (name.length + 1) (List.drop file.pos file.data) = name ++ [0] := by
    have : List.drop file.pos file.data = (name ++ [0]) ++ rest := by
      simpa [FILE.unread] using hu
    rw [this, List.take_left' (by simp)]
  simp only [hseek, htn, fread, htake, List.length_append, List.length_singleton]
  rfl

theorem loadstr_eof (file : FILE) (h0 : (0 : Byte) ∉ file.unread)
    (hlen : (file.unread.length : Int) < INT_MAX) :
    loadstr file = some (none, ⟨file.data, file.pos + file.unread.length⟩) := by
  have h := loadstrLoop_eof file.unread (file.unread.length + 1) file 0 rfl h0
    (by omega) (by omega)
  simp only [loadstr, h, if_true]

/-- A list containing a NUL splits at its first NUL. -/
theorem split_first_nul (l : List Byte) (h : (0 : Byte) ∈ l) :
    ∃ name rest, l = name ++ 0 :: rest ∧ (0 : Byte) ∉ name := by
  induction l with
  | nil => simp at h
  | cons b l ih =>
    by_cases hb : b = 0
    · exact ⟨[], l, by simp [hb], by simp⟩
    · have hl : (0 : Byte) ∈ l := by
        rcases List.mem_cons.mp h with h | h
        · exact absurd h.symm hb
        · exact h
      obtain ⟨name, rest, e, hn⟩ := ih hl
      refine ⟨b :: name, rest, by simp [e], ?_⟩
      intro hm
      rcases List.mem_cons.mp hm with h | h
      · exact hb h.symm
      · exact hn h

/-! ## Header: sizes -/

theorem headerSize_eq (names : List (List Byte)) :
    ∀ hs : Nat, headerSize names hs
      = (hs + (names.map fun n => n.length + 1 + 4).sum) % 4294967296 % 4294967296
        ∨ names = [] ∧ headerSize names hs = hs := by
  induction names with
  | nil => intro hs; right; exact ⟨rfl, rfl⟩
  | cons n rest ih =>
    intro hs
    left
    simp only [headerSize, List.map_cons, List.sum_cons]
    rcases ih ((hs + (n.length + 1) + 4) % 4294967296) with h | ⟨h1, h2⟩
    · rw [h]; omega
    · rw [h2, h1]; simp only [List.map_nil, List.sum_nil]; omega

theorem headerSize_four (names : List (List Byte)) (h : headerLength names < 4294967296) :
    headerSize names 4 = headerLength names := by
  simp only [headerLength] at h ⊢
  rcases headerSize_eq names 4 with h1 | ⟨h1, h2⟩
  · rw [h1]; omega
  · rw [h2, h1]; rfl

theorem entryBytes_length (e : List Byte × Int) : (entryBytes e).length = e.1.length + 1 + 4 := by
  simp [entryBytes, encodeInt_length]

theorem bind_entryBytes_length (entries : List (List Byte × Int)) :
    (entries.flatMap entryBytes).length = ((entries.map Prod.fst).map fun n => n.length + 1 + 4).sum := by
  induction entries with
  | nil => rfl
  | cons e rest ih =>
    simp only [List.flatMap_cons, List.length_append, entryBytes_length, ih, List.map_cons,
      List.sum_cons]

theorem headerBytes_length (entries : List (List Byte × Int)) :
    (headerBytes entries).length = headerLength (entries.map Prod.fst) := by
  simp only [headerBytes, List.length_append, encodeInt_length, bind_entryBytes_length,
    headerLength]

theorem headerLength_mem (names : List (List Byte)) (n : List Byte) (h : n ∈ names) :
    n.length + 9 ≤ headerLength names := by
  induction names with
  | nil => simp at h
  | cons m rest ih =>
    simp only [headerLength, List.map_cons, List.sum_cons] at ih ⊢
    rcases List.mem_cons.mp h with h | h
    · subst h; omega
    · have := ih h; omega

theorem headerLength_count (names : List (List Byte)) :
    5 * names.length + 4 ≤ headerLength names := by
  induction names with
  | nil => simp [headerLength]
  | cons m rest ih =>
    simp only [headerLength, List.map_cons, List.sum_cons, List.length_cons] at ih ⊢
    omega

/-! ## Header: decoding what was encoded -/

theorem cstr_terminated (name : List Byte) (h0 : (0 : Byte) ∉ name) :
    cstr (name ++ [0]) = name := by
  induction name with
  | nil => simp [cstr]
  | cons b name ih =>
    have hb0 : b ≠ 0 := fun h => h0 (by simp [h])
    have hn0 : (0 : Byte) ∉ name := fun h => h0 (List.mem_cons_of_mem _ h)
    have := ih hn0
    simp only [cstr] at this ⊢
    simp only [List.cons_append, List.takeWhile_cons]
    rw [if_pos (by simpa using hb0), this]

theorem freadInt_encoded (f : FILE) (x old : Int) (rest : List Byte)
    (hu : f.unread = encodeInt x ++ rest) (h1 : -2147483648 ≤ x) (h2 : x ≤ INT_MAX) :
    freadInt f old = (x, ⟨f.data, f.pos + 4⟩) := by
  have htake : List.take 4 (List.drop f.pos f.data) = encodeInt x := by
    have : List.drop f.pos f.data = encodeInt x ++ rest := by simpa [FILE.unread] using hu
    rw [this, List.take_left' (encodeInt_length x)]
  simp only [freadInt, fread, htake, encodeInt_length]
  have hd : List.drop 4 (encodeInt old) = [] := rfl
  rw [hd, List.append_nil, decodeInt_encodeInt x h1 h2]

theorem readEntries_spec (mem : Uninit) (D : List Byte) (entries : List (List Byte × Int)) :
    ∀ (i : Nat) (f : FILE),
      f.unread = entries.flatMap entryBytes ++ D →
      (∀ e ∈ entries, (0 : Byte) ∉ e.1) →
      (∀ e ∈ entries, (e.1.length : Int) < INT_MAX) →
      (∀ e ∈ entries, -2147483648 ≤ e.2 ∧ e.2 ≤ INT_MAX) →
      readEntries mem entries.length i f
        = some (entries.map mkEntry, ⟨f.data, f.pos + (entries.flatMap entryBytes).length⟩) := by
  induction entries with
  | nil => intro i f _ _ _ _; rfl
  | cons e rest ih =>
    intro i f hu h0 hl hs
    have hu1 : f.unread = e.1 ++ 0 :: (encodeInt e.2 ++ (rest.flatMap entryBytes ++ D)) := by
      rw [hu]
      simp [List.flatMap_cons, entryBytes]
    have hload := loadstr_nul f e.1 _ hu1 (h0 e (List.mem_cons_self _ _))
      (hl e (List.mem_cons_self _ _))
    have hu1' : FILE.unread ⟨f.data, f.pos⟩ = (e.1 ++ [0]) ++ (encodeInt e.2 ++ (rest.flatMap entryBytes ++ D)) := by
      show f.unread = _
      rw [hu1]
      simp
    have hu2 : FILE.unread ⟨f.data, f.pos + e.1.length + 1⟩
        = encodeInt e.2 ++ (rest.flatMap entryBytes ++ D) := by
      have := unread_add f.data f.pos (e.1 ++ [0]) _ hu1'
      simpa [Nat.add_assoc] using this
    have hint := freadInt_encoded ⟨f.data, f.pos + e.1.length + 1⟩ e.2 (mem.size i) _ hu2
      (hs e (List.mem_cons_self _ _)).1 (hs e (List.mem_cons_self _ _)).2
    have hu3 : FILE.unread ⟨f.data, f.pos + e.1.length + 1 + 4⟩ = rest.flatMap entryBytes ++ D := by
      have := unread_add f.data (f.pos + e.1.length + 1) (encodeInt e.2) _ hu2
      simpa [encodeInt_length] using this
    have hrec := ih (i + 1) ⟨f.data, f.pos + e.1.length + 1 + 4⟩ hu3
      (fun x hx => h0 x (List.mem_cons_of_mem _ hx))
      (fun x hx => hl x (List.mem_cons_of_mem _ hx))
      (fun x hx => hs x (List.mem_cons_of_mem _ hx))
    simp only [List.length_cons, readEntries, hload, hint, hrec, Option.map_some',
      cstr_terminated e.1 (h0 e (List.mem_cons_self _ _)), List.map_cons, mkEntry,
      List.flatMap_cons, List.length_append, entryBytes_length]
    congr 3
    omega

theorem readHeader_spec (mem : Uninit) (D : List Byte) (entries : List (List Byte × Int))
    (f : FILE) (hu : f.unread = headerBytes entries ++ D)
    (h0 : ∀ e ∈ entries, (0 : Byte) ∉ e.1)
    (hs : ∀ e ∈ entries, -2147483648 ≤ e.2 ∧ e.2 ≤ INT_MAX)
    (hh : (headerLength (entries.map Prod.fst) : Int) ≤ INT_MAX) :
    readHeader f mem
      = some (some (entries.map mkEntry), (entries.length : Int),
          ⟨f.data, f.pos + (headerBytes entries).length⟩) := by
  have hcount := headerLength_count (entries.map Prod.fst)
  simp only [List.length_map] at hcount
  simp only [INT_MAX] at hh
  have hl : ∀ e ∈ entries, (e.1.length : Int) < INT_MAX := by
    intro e he
    have := headerLength_mem (entries.map Prod.fst) e.1 (List.mem_map_of_mem _ he)
    simp only [INT_MAX]
    omega
  have hu1 : f.unread = encodeInt entries.length ++ (entries.flatMap entryBytes ++ D) := by
    rw [hu, headerBytes, List.append_assoc]
  have hint := freadInt_encoded f entries.length mem.nFiles _ hu1 (by omega)
    (by simp only [INT_MAX]; omega)
  have hu2 : FILE.unread ⟨f.data, f.pos + 4⟩ = entries.flatMap entryBytes ++ D := by
    have := unread_add f.data f.pos (encodeInt entries.length) _ hu1
    simpa [encodeInt_length] using this
  have hrec := readEntries_spec mem D entries 0 ⟨f.data, f.pos + 4⟩ hu2 h0 hl hs
  simp only [readHeader, hint, Int.toNat_ofNat, hrec, headerBytes, List.length_append,
    encodeInt_length]
  congr 4
  omega

/-! ## `createTar`: the archive it writes -/

theorem writeEntries_spec (entries : List (List Byte × Int)) :
    ∀ f : FILE, writeEntries (entries.map mkEntry) f
      = some (fwrite (entries.flatMap entryBytes) f) := by
  induction entries with
  | nil => intro f; rfl
  | cons e rest ih =>
    intro f
    simp only [List.map_cons, writeEntries, mkEntry, ih, List.flatMap_cons, entryBytes,
      fwrite_append]

theorem writeHeader_spec (entries : List (List Byte × Int)) (f : FILE) :
    writeHeader entries.length (entries.map mkEntry) f
      = some (fwrite (headerBytes entries) ⟨f.data, 0⟩) := by
  simp only [writeHeader, writeEntries_spec, headerBytes, fwrite_append, fseekSet]

theorem FS.write_write (fs : FS) (name : List Byte) (d e : List Byte) :
    (fs.write name d).write name e = fs.write name e := by
  have h : (fun n => if n = name then some e else (fs.write name d) n)
      = fun n => if n = name then some e else fs n := by
    funext n
    by_cases hn : n = name
    · simp only [hn, if_true]
    · simp only [hn, if_false]
      show (if n = name then some d else fs n) = fs n
      simp only [hn, if_false]
  show FS.mk _ _ = FS.mk _ _
  rw [h]
  rfl

theorem FS.write_apply (fs : FS) (name d n : List Byte) :
    (fs.write name d) n = if n = name then some d else fs n := rfl

theorem FS.write_writable (fs : FS) (name d : List Byte) :
    (fs.write name d).writable = fs.writable := rfl

theorem fopenR_write_ne (fs : FS) (t n d : List Byte) (h : n ≠ t) :
    fopenR (fs.write t d) n = fopenR fs n := by
  simp only [fopenR, FS.write_apply, h, if_false]

theorem copyFiles_spec (fs : FS) (files : List (List Byte × List Byte)) :
    ∀ f : FILE,
      (∀ p ∈ files, fopenR fs p.1 = some ⟨p.2, 0⟩) →
      (∀ p ∈ files, (p.2.length : Int) < INT_MAX) →
      copyFiles fs (files.map Prod.fst) f
        = some ((files.map fileEntry).map mkEntry, fwrite (files.flatMap Prod.snd) f) := by
  induction files with
  | nil => intro f _ _; rfl
  | cons p rest ih =>
    intro f ho hl
    have h1 := copynFile_whole p.2 f (hl p (List.mem_cons_self _ _))
    have h2 := ih (fwrite p.2 f) (fun q hq => ho q (List.mem_cons_of_mem _ hq))
      (fun q hq => hl q (List.mem_cons_of_mem _ hq))
    simp only [List.map_cons, copyFiles, ho p (List.mem_cons_self _ _), h1, h2,
      List.flatMap_cons, fwrite_append, fileEntry, mkEntry]

theorem createTar_spec (fs : FS) (files : List (List Byte × List Byte)) (tarName : List Byte)
    (htar : tarName ≠ []) (hw : fs.writable tarName = true)
    (hnot : ∀ p ∈ files, p.1 ≠ tarName)
    (hopen : ∀ p ∈ files, fopenR fs p.1 = some ⟨p.2, 0⟩)
    (hlen : ∀ p ∈ files, (p.2.length : Int) < INT_MAX)
    (hhdr : headerLength (files.map Prod.fst) < 4294967296) :
    createTar (files.map Prod.fst) tarName fs
      = some (EXIT_SUCCESS,
          fs.write tarName (headerBytes (files.map fileEntry) ++ files.flatMap Prod.snd)) := by
  have hopen' : ∀ p ∈ files, fopenR (fs.write tarName []) p.1 = some ⟨p.2, 0⟩ := by
    intro p hp
    rw [fopenR_write_ne fs tarName p.1 [] (hnot p hp)]
    exact hopen p hp
  have hcopy := copyFiles_spec (fs.write tarName []) files
    ⟨[], headerSize (files.map Prod.fst) 4⟩ hopen' hlen
  have hwr := writeHeader_spec (files.map fileEntry)
    (fwrite (files.flatMap Prod.snd) ⟨[], headerSize (files.map Prod.fst) 4⟩)
  simp only [List.length_map] at hwr
  have hfst : (files.map fileEntry).map Prod.fst = files.map Prod.fst := by
    simp [fileEntry, Function.comp_def]
  have hH : (headerBytes (files.map fileEntry)).length = headerSize (files.map Prod.fst) 4 := by
    rw [headerBytes_length, hfst, headerSize_four _ hhdr]
  obtain ⟨hdrop, hlen0⟩ := fwrite_gap (files.flatMap Prod.snd) (headerSize (files.map Prod.fst) 4)
  have hdata := fwrite_data (headerBytes (files.map fileEntry))
    ⟨(fwrite (files.flatMap Prod.snd) ⟨[], headerSize (files.map Prod.fst) 4⟩).data, 0⟩
    (Nat.zero_le _)
  simp only [List.take_zero, List.nil_append, Nat.zero_add, hH, hdrop] at hdata
  simp only [createTar, fopenW, htar, hw, if_false, if_true, fseekSet, hcopy, List.length_map,
    hwr, fcloseW, hdata, FS.write_write]

/-! ## `listTar`: what it prints -/

theorem printEntries_spec (entries : List (List Byte × Int)) :
    printEntries (entries.map mkEntry)
      = some (entries.flatMap fun e => fmtLine e.1 e.2) := by
  induction entries with
  | nil => rfl
  | cons e rest ih =>
    simp only [List.map_cons, printEntries, mkEntry, List.flatMap_cons] at ih ⊢
    simp only [ih]

theorem flatMap_fileEntry (files : List (List Byte × List Byte)) (g : List Byte × Int → List Byte) :
    (files.map fileEntry).flatMap g = files.flatMap fun p => g (p.1, (p.2.length : Int)) := by
  induction files with
  | nil => rfl
  | cons p rest ih => simp only [List.map_cons, List.flatMap_cons, ih, fileEntry]

theorem fopenR_write_self (fs : FS) (t d : List Byte) (ht : t ≠ []) :
    fopenR (fs.write t d) t = some ⟨d, 0⟩ := by
  simp [fopenR, FS.write_apply, ht]

theorem flatMap_snd_length (files : List (List Byte × List Byte)) :
    (files.flatMap Prod.snd).length = (files.map fun p => p.2.length).sum := by
  induction files with
  | nil => rfl
  | cons p rest ih => simp only [List.flatMap_cons, List.length_append, ih, List.map_cons,
      List.sum_cons]

theorem fileEntry_fst (files : List (List Byte × List Byte)) :
    (files.map fileEntry).map Prod.fst = files.map Prod.fst := by
  simp [fileEntry, Function.comp_def]

theorem headerSize_mod (names : List (List Byte)) :
    headerSize names 4 = headerLength names % 4294967296 := by
  simp only [headerLength]
  rcases headerSize_eq names 4 with h1 | ⟨h1, h2⟩
  · rw [h1]; omega
  · rw [h2, h1]; rfl

/-! ## `extractTar`: the files it writes -/

/-- The function `createTar` is `createTarData` followed by the header-writing step
and the closing of the archive. -/
theorem createTar_eq_phases (fileNames : List (List Byte)) (tarName : List Byte) (fs : FS) :
    createTar fileNames tarName fs
      = (createTarData fileNames tarName fs).bind fun s =>
          (writeHeader fileNames.length s.2.1 s.2.2.1).map fun f =>
            (EXIT_SUCCESS, fcloseW s.2.2.2 tarName f) := by
  simp only [createTar, createTarData, createTarSeek]
  cases fopenW fs tarName with
  | none => rfl
  | some r =>
    obtain ⟨f, fs₁⟩ := r
    simp only [Option.bind]
    cases copyFiles fs₁ fileNames (fseekSet f (headerSize fileNames 4)) with
    | none => rfl
    | some q =>
      obtain ⟨headers, g⟩ := q
      simp only
      cases writeHeader (↑fileNames.length) headers g with
      | none => rfl
      | some h => rfl

/-- An entry whose name cannot be opened for writing: `fopen` gives `NULL`, which
reaches `fclose`, so the extraction has no defined result. -/
theorem extractFiles_unwritable (h : stHeaderEntry) (rest : List stHeaderEntry) (f : FILE)
    (fs : FS) (name : List Byte) (hn : h.name = some name)
    (hw : fs.writable name = false) : extractFiles (h :: rest) f fs = none := by
  have hopen : fopenW fs name = none := by
    simp only [fopenW, hw]
    split <;> simp
  simp only [extractFiles, hn, hopen]

/-- With read-only inputs `createTar` writes the archive, and `extractTar` run in the
same file system has no defined result: `fopen(name, "w")` gives `NULL`. -/
theorem extractTar_readOnly_input :
    (createTar [[97]] [116] readOnlyFS).map Prod.fst = some EXIT_SUCCESS ∧
    ((createTar [[97]] [116] readOnlyFS).bind fun r =>
        (extractTar [116] r.2 sampleMem).map Prod.fst) = none := by
  decide

/-! ## Claims -/

/-- Claim C6 (bounded copy): for valid streams and `1 ≤ nBytes`, `copynFile` returns
`min nBytes r` where `r` is the number of unread bytes of the origin, advances the
origin by that count, and writes exactly the first `min nBytes r` unread bytes at the
destination's position (appending them when the destination is positioned at its
end); on an exhausted origin it returns 0 and leaves both streams as they were. -/
theorem copynFile_bounded (origin destination : FILE) (nBytes : Int)
    (h1 : 1 ≤ nBytes) (h2 : nBytes ≤ INT_MAX) :
    copynFile (some origin) (some destination) nBytes
      = some (min nBytes (origin.unread.length : Int),
          some ⟨origin.data, origin.pos + min nBytes.toNat origin.unread.length⟩,
          some (fwrite (origin.unread.take (min nBytes.toNat origin.unread.length)) destination)) ∧
    (destination.pos = destination.data.length →
      (fwrite (origin.unread.take (min nBytes.toNat origin.unread.length)) destination).data
        = destination.data ++ origin.unread.take (min nBytes.toNat origin.unread.length)) ∧
    (origin.unread = [] →
      copynFile (some origin) (some destination) nBytes
        = some (0, some origin, some destination)) := by
  have hk : min nBytes.toNat origin.unread.length
      = min (max 1 nBytes).toNat origin.unread.length := by omega
  have h := copynFile_spec origin destination nBytes h2 _ hk
  have hret : ((min nBytes.toNat origin.unread.length : Nat) : Int)
      = min nBytes (origin.unread.length : Int) := by omega
  refine ⟨?_, ?_, ?_⟩
  · rw [h, hret]
  · intro hp
    rw [fwrite_data _ _ (le_of_eq hp), hp]
    simp
  · intro he
    rw [h, he]
    simp [fwrite_nil]

theorem copynFile_bounded_witness :
    (1 : Int) ≤ 2 ∧ (2 : Int) ≤ INT_MAX ∧
    copynFile (some ⟨[97, 0, 255], 0⟩) (some ⟨[7], 1⟩) 2
      = some (2, some ⟨[97, 0, 255], 2⟩, some ⟨[7, 97, 0], 3⟩) :=
  ⟨by decide, by decide,
    (copynFile_bounded ⟨[97, 0, 255], 0⟩ ⟨[7], 1⟩ 2 (by decide) (by decide)).1⟩

/-- Claim C9 (string read): on a stream with fewer than `INT_MAX` unread bytes,
`loadstr` returns, it returns `NULL` exactly when the unread bytes contain no NUL,
and otherwise it returns the buffer made of the bytes before the first NUL followed
by that NUL, with the stream positioned immediately after the NUL. -/
theorem loadstr_spec (file : FILE) (hlen : (file.unread.length : Int) < INT_MAX) :
    (∃ r, loadstr file = some r) ∧
    ((∃ file', loadstr file = some (none, file')) ↔ (0 : Byte) ∉ file.unread) ∧
    (∀ name rest : List Byte, file.unread = name ++ 0 :: rest → (0 : Byte) ∉ name →
      loadstr file
        = some (some (name ++ [0]), ⟨file.data, file.pos + name.length + 1⟩)) := by
  have hfound : ∀ name rest : List Byte, file.unread = name ++ 0 :: rest → (0 : Byte) ∉ name →
      loadstr file
        = some (some (name ++ [0]), ⟨file.data, file.pos + name.length + 1⟩) := by
    intro name rest hu h0
    apply loadstr_nul file name rest hu h0
    rw [hu] at hlen
    simp only [List.length_append, List.length_cons] at hlen
    omega
  by_cases hz : (0 : Byte) ∈ file.unread
  · obtain ⟨name, rest, hu, h0⟩ := split_first_nul _ hz
    have h := hfound name rest hu h0
    refine ⟨⟨_, h⟩, ⟨?_, ?_⟩, hfound⟩
    · rintro ⟨file', hf⟩
      rw [h] at hf
      simp at hf
    · intro hnz
      exact absurd hz hnz
  · have h := loadstr_eof file hz hlen
    exact ⟨⟨_, h⟩, ⟨fun _ => hz, fun _ => ⟨_, h⟩⟩, hfound⟩

theorem loadstr_spec_witness :
    ((FILE.unread ⟨[9, 97, 98, 0, 5], 1⟩).length : Int) < INT_MAX ∧
    loadstr ⟨[9, 97, 98, 0, 5], 1⟩ = some (some [97, 98, 0], ⟨[9, 97, 98, 0, 5], 4⟩) :=
  ⟨by decide,
    (loadstr_spec ⟨[9, 97, 98, 0, 5], 1⟩ (by decide)).2.2 [97, 98] [5] (by decide) (by decide)⟩

/-- Claim C2 (archive layout): for openable inputs of fewer than `INT_MAX` bytes each
(the archive path being one that can be opened for writing and not one of the inputs,
and the header length fitting the `unsigned int` offset), `createTar` succeeds and the
archive holds exactly the 4-byte count, then per input its name, one NUL and the
4-byte content length, then all the contents in the same order; its length is the
header length plus the sum of the recorded sizes. -/
theorem createTar_layout (fs : FS) (files : List (List Byte × List Byte)) (tarName : List Byte)
    (htar : tarName ≠ []) (hw : fs.writable tarName = true)
    (hnot : ∀ p ∈ files, p.1 ≠ tarName)
    (hopen : ∀ p ∈ files, fopenR fs p.1 = some ⟨p.2, 0⟩)
    (hlen : ∀ p ∈ files, (p.2.length : Int) < INT_MAX)
    (hhdr : headerLength (files.map Prod.fst) < 4294967296) :
    createTar (files.map Prod.fst) tarName fs
      = some (EXIT_SUCCESS, fs.write tarName
          (encodeInt files.length
            ++ (files.flatMap fun p => p.1 ++ [0] ++ encodeInt p.2.length)
            ++ files.flatMap Prod.snd)) ∧
    (encodeInt files.length
        ++ (files.flatMap fun p => p.1 ++ [0] ++ encodeInt p.2.length)
        ++ files.flatMap Prod.snd).length
      = headerLength (files.map Prod.fst) + (files.map fun p => p.2.length).sum := by
  have h := createTar_spec fs files tarName htar hw hnot hopen hlen hhdr
  have hb : headerBytes (files.map fileEntry)
      = encodeInt files.length ++ files.flatMap fun p => p.1 ++ [0] ++ encodeInt p.2.length := by
    simp only [headerBytes, List.length_map, flatMap_fileEntry, entryBytes]
  have hl := headerBytes_length (files.map fileEntry)
  rw [fileEntry_fst, hb] at hl
  rw [hb] at h
  refine ⟨h, ?_⟩
  rw [List.length_append, hl, flatMap_snd_length]

theorem createTar_layout_witness :
    ([116] : List Byte) ≠ [] ∧
    sampleFS.writable [116] = true ∧
    (∀ p ∈ sampleFiles, p.1 ≠ [116]) ∧
    (∀ p ∈ sampleFiles, fopenR sampleFS p.1 = some ⟨p.2, 0⟩) ∧
    (∀ p ∈ sampleFiles, (p.2.length : Int) < INT_MAX) ∧
    headerLength (sampleFiles.map Prod.fst) < 4294967296 ∧
    createTar [[97], [98, 98]] [116] sampleFS
      = some (EXIT_SUCCESS, sampleFS.write [116]
          [2, 0, 0, 0, 97, 0, 3, 0, 0, 0, 98, 98, 0, 0, 0, 0, 0, 97, 98, 99]) :=
  ⟨by decide, by decide, by decide, by decide, by decide, by decide,
    (createTar_layout sampleFS sampleFiles [116] (by decide) (by decide) (by decide)
      (by decide) (by decide) (by decide)).1⟩

/-- Claim C3 (header consistency): for openable inputs of fewer than `INT_MAX` bytes
each with NUL-free names (the archive path being one that can be opened for writing
and not one of the inputs, and the header length within the `int` range), `listTar` on
the archive written by `createTar` prints one line `name size` per input, in the input
order, each size being the byte length of that input. -/
theorem listTar_createTar (fs : FS) (files : List (List Byte × List Byte)) (tarName : List Byte)
    (mem : Uninit)
    (htar : tarName ≠ []) (hw : fs.writable tarName = true)
    (hnot : ∀ p ∈ files, p.1 ≠ tarName)
    (hopen : ∀ p ∈ files, fopenR fs p.1 = some ⟨p.2, 0⟩)
    (hlen : ∀ p ∈ files, (p.2.length : Int) < INT_MAX)
    (hnul : ∀ p ∈ files, (0 : Byte) ∉ p.1)
    (hhdr : (headerLength (files.map Prod.fst) : Int) ≤ INT_MAX) :
    (createTar (files.map Prod.fst) tarName fs).bind (fun r => listTar tarName r.2 mem)
      = some (0, files.flatMap fun p => fmtLine p.1 (p.2.length : Int)) := by
  have h := createTar_spec fs files tarName htar hw hnot hopen hlen
    (by simp only [INT_MAX] at hhdr; omega)
  have hread := readHeader_spec mem (files.flatMap Prod.snd) (files.map fileEntry)
    ⟨headerBytes (files.map fileEntry) ++ files.flatMap Prod.snd, 0⟩ rfl
    (by
      intro e he
      obtain ⟨p, hp, rfl⟩ := List.mem_map.mp he
      exact hnul p hp)
    (by
      intro e he
      obtain ⟨p, hp, rfl⟩ := List.mem_map.mp he
      have := hlen p hp
      simp only [fileEntry, INT_MAX] at this ⊢
      omega)
    (by rw [fileEntry_fst]; exact hhdr)
  rw [h]
  show listTar tarName (fs.write tarName _) mem = _
  simp only [listTar, fopenR_write_self _ _ _ htar, hread, printEntries_spec, flatMap_fileEntry]

theorem listTar_createTar_witness :
    ([116] : List Byte) ≠ [] ∧
    sampleFS.writable [116] = true ∧
    (∀ p ∈ sampleFiles, p.1 ≠ [116]) ∧
    (∀ p ∈ sampleFiles, fopenR sampleFS p.1 = some ⟨p.2, 0⟩) ∧
    (∀ p ∈ sampleFiles, (p.2.length : Int) < INT_MAX) ∧
    (∀ p ∈ sampleFiles, (0 : Byte) ∉ p.1) ∧
    (headerLength (sampleFiles.map Prod.fst) : Int) ≤ INT_MAX ∧
    (createTar [[97], [98, 98]] [116] sampleFS).bind (fun r => listTar [116] r.2 sampleMem)
      = some (0, [97, 32, 51, 10, 98, 98, 32, 48, 10]) :=
  ⟨by decide, by decide, by decide, by decide, by decide, by decide, by decide,
    listTar_createTar sampleFS sampleFiles [116] sampleMem (by decide) (by decide) (by decide)
      (by decide) (by decide) (by decide) (by decide)⟩

/-- Claim C4 (header codec round trip and position): for entries with NUL-free names
and sizes representable as 4-byte ints (the header length within the `int` range) and
any data `D`, the header-writing step of `createTar` produces a header `h` such that
`readHeader` on `h` followed by `D` returns the same count and the same entries in the
same order and leaves the stream positioned at the first byte of `D`. -/
theorem readHeader_writeHeader (entries : List (List Byte × Int)) (D : List Byte) (mem : Uninit)
    (h0 : ∀ e ∈ entries, (0 : Byte) ∉ e.1)
    (hs : ∀ e ∈ entries, -2147483648 ≤ e.2 ∧ e.2 ≤ INT_MAX)
    (hh : (headerLength (entries.map Prod.fst) : Int) ≤ INT_MAX) :
    ∃ h : FILE,
      writeHeader entries.length (entries.map mkEntry) ⟨[], 0⟩ = some h ∧
      readHeader ⟨h.data ++ D, 0⟩ mem
        = some (some (entries.map mkEntry), (entries.length : Int),
            ⟨h.data ++ D, h.data.length⟩) ∧
      FILE.unread ⟨h.data ++ D, h.data.length⟩ = D := by
  have hw := writeHeader_spec entries ⟨[], 0⟩
  have hd : (fwrite (headerBytes entries) ⟨[], 0⟩).data = headerBytes entries := by
    rw [fwrite_data _ _ (Nat.zero_le _)]
    simp
  refine ⟨_, hw, ?_, ?_⟩
  · rw [hd]
    have := readHeader_spec mem D entries ⟨headerBytes entries ++ D, 0⟩ rfl h0 hs hh
    simpa using this
  · rw [hd]
    simp [FILE.unread]

theorem readHeader_writeHeader_witness :
    (∀ e ∈ [(([97] : List Byte), (3 : Int)), ([98, 98], 0)], (0 : Byte) ∉ e.1) ∧
    (∀ e ∈ [(([97] : List Byte), (3 : Int)), ([98, 98], 0)],
      -2147483648 ≤ e.2 ∧ e.2 ≤ INT_MAX) ∧
    ((headerLength ([(([97] : List Byte), (3 : Int)), ([98, 98], 0)].map Prod.fst) : Nat) : Int)
      ≤ INT_MAX ∧
    ∃ h : FILE,
      writeHeader 2 [⟨some [97], 3⟩, ⟨some [98, 98], 0⟩] ⟨[], 0⟩ = some h ∧
      readHeader ⟨h.data ++ [97, 98, 99], 0⟩ sampleMem
        = some (some [⟨some [97], 3⟩, ⟨some [98, 98], 0⟩], 2,
            ⟨h.data ++ [97, 98, 99], h.data.length⟩) ∧
      FILE.unread ⟨h.data ++ [97, 98, 99], h.data.length⟩ = [97, 98, 99] :=
  ⟨by decide, by decide, by decide,
    readHeader_writeHeader [([97], 3), ([98, 98], 0)] [97, 98, 99] sampleMem
      (by decide) (by decide) (by decide)⟩

/-- Claim C7 (copy boundary) fails on the code: with `nBytes = 0` and a source that
still has the byte `a` unread, `copynFile` returns 1, writes that byte to the
destination and advances the source, because the loop body runs before `nBytes` is
compared. -/
theorem copynFile_zero_copies_one :
    copynFile (some ⟨[97, 98], 0⟩) (some ⟨[], 0⟩) 0
      = some (1, some ⟨[97, 98], 1⟩, some ⟨[97], 1⟩) := by
  decide

/-- Claim C1 (round trip) fails on the code: archiving the empty file `e` followed by
`a` = `abc` and extracting the archive leaves `e` holding `a` and `a` holding `bc`. -/
theorem roundtrip_empty_first :
    ((createTar [[101], [97]] [116] emptyFirstFS).bind fun r =>
        (extractTar [116] r.2 sampleMem).map fun q => (q.2 [101], q.2 [97]))
      = some (some [97], some [98, 99]) := by
  decide

/-- Claim C8 (zero-length file) fails on the code: for the inputs `x` = `hi`, `z`
empty, `y` = `!`, the archive lists `z` with size 0, yet `extractTar` creates `z`
holding the byte `!` (and `y` empty). -/
theorem extract_empty_middle :
    ((createTar [[120], [122], [121]] [116] emptyMiddleFS).bind fun r =>
        listTar [116] r.2 sampleMem)
      = some (0, [120, 32, 50, 10, 122, 32, 48, 10, 121, 32, 49, 10]) ∧
    ((createTar [[120], [122], [121]] [116] emptyMiddleFS).bind fun r =>
        (extractTar [116] r.2 sampleMem).map fun q => (q.2 [120], q.2 [122], q.2 [121]))
      = some (some [104, 105], some [33], some []) := by
  decide

/-- Claim C5 (truncation safety) fails on the code: on the archive of `a` cut inside
the size field, `readHeader` returns a table with one entry whose size is made of the
two bytes read and two bytes of whatever the field held before, `listTar` prints a
line for it and `extractTar` creates the file `a`. -/
theorem readHeader_truncated (mem : Uninit) :
    readHeader ⟨truncatedArchive, 0⟩ mem
      = some (some [⟨some [97], decodeInt ([3, 0] ++ (encodeInt (mem.size 0)).drop 2)⟩], 1,
          ⟨truncatedArchive, 8⟩) ∧
    listTar [116] truncatedFS mem
      = some (0, fmtLine [97] (decodeInt ([3, 0] ++ (encodeInt (mem.size 0)).drop 2))) ∧
    (extractTar [116] truncatedFS mem).map (fun r => (r.1, r.2 [97]))
      = some (EXIT_FAILURE, some []) := by
  have h1 : freadInt ⟨truncatedArchive, 0⟩ mem.nFiles = (1, ⟨truncatedArchive, 4⟩) := rfl
  have h2 : loadstr ⟨truncatedArchive, 4⟩ = some (some [97, 0], ⟨truncatedArchive, 6⟩) := by
    decide
  have h3 : freadInt ⟨truncatedArchive, 6⟩ (mem.size 0)
      = (decodeInt ([3, 0] ++ (encodeInt (mem.size 0)).drop 2), ⟨truncatedArchive, 8⟩) := rfl
  have h4 : cstr [97, 0] = [97] := by decide
  have hread : readHeader ⟨truncatedArchive, 0⟩ mem
      = some (some [⟨some [97], decodeInt ([3, 0] ++ (encodeInt (mem.size 0)).drop 2)⟩], 1,
          ⟨truncatedArchive, 8⟩) := by
    simp only [readHeader, h1, readEntries, h2, h3, Option.map_some', h4]
  have hopen : fopenR truncatedFS [116] = some ⟨truncatedArchive, 0⟩ := by decide
  have hcopy : ∀ n : Int, copynFile (some ⟨truncatedArchive, 8⟩) (some ⟨[], 0⟩) n
      = some (0, some ⟨truncatedArchive, 8⟩, some ⟨[], 0⟩) := fun _ => rfl
  refine ⟨hread, ?_, ?_⟩
  · simp only [listTar, hopen, hread, printEntries, List.append_nil]
  · have hW : fopenW truncatedFS [97] = some (⟨[], 0⟩, truncatedFS.write [97] []) := rfl
    simp only [extractTar, hopen, hread, extractFiles, hW, hcopy, fcloseW, Option.map_some',
      FS.write_apply]
    simp

/-- Claim C10 (missing input) fails on the code: with an input that cannot be opened
`createTar` has no defined result (the `NULL` stream reaches `fclose`), and no
execution of `createTar` returns `EXIT_FAILURE`. -/
theorem createTar_missing_input :
    (createTar [[120]] [116] emptyFS).map Prod.fst = none ∧
    ∀ (fileNames : List (List Byte)) (tarName : List Byte) (fs : FS),
      (createTar fileNames tarName fs).map Prod.fst = none ∨
      (createTar fileNames tarName fs).map Prod.fst = some EXIT_SUCCESS := by
  refine ⟨by decide, ?_⟩
  intro fileNames tarName fs
  simp only [createTar]
  split
  · left; rfl
  · split
    · left; rfl
    · split
      · left; rfl
      · right; rfl

/-- Claim C11 (extraction status) fails on the code: extracting the well-formed
archive of `a` = `abc` and the empty `bb` writes both files correctly and yet returns
`EXIT_FAILURE`; no execution of `extractTar` returns `EXIT_SUCCESS`. -/
theorem extractTar_status :
    (extractTar [116] (emptyFS.write [116] sampleArchive) sampleMem).map
        (fun q => (q.1, q.2 [97], q.2 [98, 98]))
      = some (EXIT_FAILURE, some [97, 98, 99], some []) ∧
    ∀ (tarName : List Byte) (fs : FS) (mem : Uninit),
      (extractTar tarName fs mem).map Prod.fst = none ∨
      (extractTar tarName fs mem).map Prod.fst = some EXIT_FAILURE := by
  refine ⟨by decide, ?_⟩
  intro tarName fs mem
  simp only [extractTar]
  split
  · left; rfl
  · split
    · split
      · left; rfl
      · right; rfl
    · left; rfl

/-- Claim C13 (end-to-end scenario): for the inputs `a` = `abc` and the empty `bb`, in
that order, `createTar` succeeds, `readHeader` decodes the archive to the count 2 and
the entries `(a, 3)`, `(bb, 0)`, the data section left unread is exactly `abc`, and
`extractTar` on the archive alone creates `a` holding `abc` and `bb` holding no bytes. -/
theorem scenario_a_bb :
    (createTar [[97], [98, 98]] [116] sampleFS).map (fun r => (r.1, r.2 [116]))
      = some (EXIT_SUCCESS, some sampleArchive) ∧
    readHeader ⟨sampleArchive, 0⟩ sampleMem
      = some (some [⟨some [97], 3⟩, ⟨some [98, 98], 0⟩], 2, ⟨sampleArchive, 17⟩) ∧
    FILE.unread ⟨sampleArchive, 17⟩ = [97, 98, 99] ∧
    ((createTar [[97], [98, 98]] [116] sampleFS).bind fun r =>
        (extractTar [116] (r.2.only [116]) sampleMem).map fun q => (q.2 [97], q.2 [98, 98]))
      = some (some [97, 98, 99], some []) := by
  decide

/-- Claim C14 (header reservation): running `createTar` on openable inputs (archive path
writable and not an input, header length fitting the `unsigned int` offset), the offset
`hs` it hands to `fseek` before writing data is `4 + Σ (len(name) + 1 + 4)`; the data
loop leaves the contents of the inputs from offset `hs` on; the header-writing step
then writes exactly `hs` bytes from offset 0, so it ends at position `hs`, the header
occupies the bytes before `hs` and the data begins at `hs`; and that stream is the
archive `createTar` leaves. -/
theorem createTar_reservation (fs : FS) (files : List (List Byte × List Byte))
    (tarName : List Byte)
    (htar : tarName ≠ []) (hw : fs.writable tarName = true)
    (hnot : ∀ p ∈ files, p.1 ≠ tarName)
    (hopen : ∀ p ∈ files, fopenR fs p.1 = some ⟨p.2, 0⟩)
    (hlen : ∀ p ∈ files, (p.2.length : Int) < INT_MAX)
    (hhdr : headerLength (files.map Prod.fst) < 4294967296) :
    headerLength (files.map Prod.fst)
      = 4 + ((files.map Prod.fst).map fun n => n.length + 1 + 4).sum ∧
    createTarSeek (files.map Prod.fst) tarName fs
      = some (headerLength (files.map Prod.fst), ⟨[], headerLength (files.map Prod.fst)⟩,
          fs.write tarName []) ∧
    ∃ g h : FILE,
      createTarData (files.map Prod.fst) tarName fs
        = some (headerLength (files.map Prod.fst), (files.map fileEntry).map mkEntry, g,
            fs.write tarName []) ∧
      g.data.drop (headerLength (files.map Prod.fst)) = files.flatMap Prod.snd ∧
      writeHeader files.length ((files.map fileEntry).map mkEntry) g = some h ∧
      (headerBytes (files.map fileEntry)).length = headerLength (files.map Prod.fst) ∧
      h.pos = headerLength (files.map Prod.fst) ∧
      h.data.take (headerLength (files.map Prod.fst)) = headerBytes (files.map fileEntry) ∧
      h.data.drop (headerLength (files.map Prod.fst)) = files.flatMap Prod.snd ∧
      createTar (files.map Prod.fst) tarName fs
        = some (EXIT_SUCCESS, fs.write tarName h.data) := by
  have hopen' : ∀ p ∈ files, fopenR (fs.write tarName []) p.1 = some ⟨p.2, 0⟩ := by
    intro p hp
    rw [fopenR_write_ne fs tarName p.1 [] (hnot p hp)]
    exact hopen p hp
  have hhs := headerSize_four _ hhdr
  have hseek : createTarSeek (files.map Prod.fst) tarName fs
      = some (headerLength (files.map Prod.fst), ⟨[], headerLength (files.map Prod.fst)⟩,
          fs.write tarName []) := by
    simp only [createTarSeek, fopenW, htar, hw, if_false, if_true, fseekSet, hhs]
  have hcopy := copyFiles_spec (fs.write tarName []) files
    ⟨[], headerLength (files.map Prod.fst)⟩ hopen' hlen
  have hwr := writeHeader_spec (files.map fileEntry)
    (fwrite (files.flatMap Prod.snd) ⟨[], headerLength (files.map Prod.fst)⟩)
  simp only [List.length_map] at hwr
  have hH : (headerBytes (files.map fileEntry)).length = headerLength (files.map Prod.fst) := by
    rw [headerBytes_length, fileEntry_fst]
  obtain ⟨hdrop, _⟩ := fwrite_gap (files.flatMap Prod.snd) (headerLength (files.map Prod.fst))
  have hdata := fwrite_data (headerBytes (files.map fileEntry))
    ⟨(fwrite (files.flatMap Prod.snd) ⟨[], headerLength (files.map Prod.fst)⟩).data, 0⟩
    (Nat.zero_le _)
  simp only [List.take_zero, List.nil_append, Nat.zero_add, hH, hdrop] at hdata
  have hpos := fwrite_pos (headerBytes (files.map fileEntry))
    ⟨(fwrite (files.flatMap Prod.snd) ⟨[], headerLength (files.map Prod.fst)⟩).data, 0⟩
  simp only [Nat.zero_add, hH] at hpos
  refine ⟨rfl, hseek, _, _, ?_, hdrop, hwr, hH, hpos, ?_, ?_, ?_⟩
  · simp only [createTarData, hseek, hcopy]
  · rw [hdata, ← hH, List.take_left' rfl]
  · rw [hdata, ← hH, List.drop_left' rfl]
  · rw [createTar_eq_phases]
    simp only [createTarData, hseek, hcopy, Option.bind, List.length_map, hwr, Option.map,
      fcloseW, FS.write_write]

theorem createTar_reservation_witness :
    ([116] : List Byte) ≠ [] ∧
    sampleFS.writable [116] = true ∧
    (∀ p ∈ sampleFiles, p.1 ≠ [116]) ∧
    (∀ p ∈ sampleFiles, fopenR sampleFS p.1 = some ⟨p.2, 0⟩) ∧
    (∀ p ∈ sampleFiles, (p.2.length : Int) < INT_MAX) ∧
    headerLength (sampleFiles.map Prod.fst) < 4294967296 ∧
    createTarSeek [[97], [98, 98]] [116] sampleFS
      = some (17, ⟨[], 17⟩, sampleFS.write [116] []) :=
  ⟨by decide, by decide, by decide, by decide, by decide, by decide,
    (createTar_reservation sampleFS sampleFiles [116] (by decide) (by decide) (by decide)
      (by decide) (by decide) (by decide)).2.1⟩

/-- Claim C12 (stored names are basenames) fails on the code: for the input path
`dir/a` the name in the header is not the final component `a`. -/
theorem storedNames_not_basename :
    storedNames [[100, 105, 114, 47, 97]] [116] dirFS sampleMem
      ≠ some [some (basename [100, 105, 114, 47, 97])] := by
  decide

/-- Claim C12 as amended: for openable inputs with NUL-free paths (the archive path
being one that can be opened for writing and not one of the inputs, and the header
length within the `int` range), the name in each header entry of the archive is the
input path exactly as given, directory components included. -/
theorem storedNames_eq_paths (fs : FS) (files : List (List Byte × List Byte))
    (tarName : List Byte) (mem : Uninit)
    (htar : tarName ≠ []) (hw : fs.writable tarName = true)
    (hnot : ∀ p ∈ files, p.1 ≠ tarName)
    (hopen : ∀ p ∈ files, fopenR fs p.1 = some ⟨p.2, 0⟩)
    (hlen : ∀ p ∈ files, (p.2.length : Int) < INT_MAX)
    (hnul : ∀ p ∈ files, (0 : Byte) ∉ p.1)
    (hhdr : (headerLength (files.map Prod.fst) : Int) ≤ INT_MAX) :
    storedNames (files.map Prod.fst) tarName fs mem = some (files.map fun p => some p.1) := by
  have h := createTar_spec fs files tarName htar hw hnot hopen hlen
    (by simp only [INT_MAX] at hhdr; omega)
  have hread := readHeader_spec mem (files.flatMap Prod.snd) (files.map fileEntry)
    ⟨headerBytes (files.map fileEntry) ++ files.flatMap Prod.snd, 0⟩ rfl
    (by
      intro e he
      obtain ⟨p, hp, rfl⟩ := List.mem_map.mp he
      exact hnul p hp)
    (by
      intro e he
      obtain ⟨p, hp, rfl⟩ := List.mem_map.mp he
      have := hlen p hp
      simp only [fileEntry, INT_MAX] at this ⊢
      omega)
    (by rw [fileEntry_fst]; exact hhdr)
  simp only [storedNames, h, fopenR_write_self _ _ _ htar, hread, List.map_map]
  congr 1

theorem storedNames_eq_paths_witness :
    ([116] : List Byte) ≠ [] ∧
    dirFS.writable [116] = true ∧
    (∀ p ∈ [(([100, 105, 114, 47, 97] : List Byte), ([97, 98, 99] : List Byte))], p.1 ≠ [116]) ∧
    (∀ p ∈ [(([100, 105, 114, 47, 97] : List Byte), ([97, 98, 99] : List Byte))],
      fopenR dirFS p.1 = some ⟨p.2, 0⟩) ∧
    (∀ p ∈ [(([100, 105, 114, 47, 97] : List Byte), ([97, 98, 99] : List Byte))],
      (p.2.length : Int) < INT_MAX) ∧
    (∀ p ∈ [(([100, 105, 114, 47, 97] : List Byte), ([97, 98, 99] : List Byte))],
      (0 : Byte) ∉ p.1) ∧
    (headerLength ([(([100, 105, 114, 47, 97] : List Byte), ([97, 98, 99] : List Byte))].map
      Prod.fst) : Int) ≤ INT_MAX ∧
    storedNames [[100, 105, 114, 47, 97]] [116] dirFS sampleMem
      = some [some [100, 105, 114, 47, 97]] :=
  ⟨by decide, by decide, by decide, by decide, by decide, by decide, by decide,
    storedNames_eq_paths dirFS [([100, 105, 114, 47, 97], [97, 98, 99])] [116] sampleMem
      (by decide) (by decide) (by decide) (by decide) (by decide) (by decide) (by decide)⟩

end Mytar

namespace Distribution

/-! ## The histogram of `distr.c` -/

theorem incr_getD (h : List Int) : ∀ (i j : Nat), i < h.length →
    (incr h i).getD j 0 = h.getD j 0 + (if j = i then 1 else 0) := by
  induction h with
  | nil => intro i j hi; simp at hi
  | cons x xs ih =>
    intro i j hi
    cases i with
    | zero =>
      cases j with
      | zero => simp [incr]
      | succ j => simp [incr]
    | succ i =>
      cases j with
      | zero => simp [incr]
      | succ j =>
        have := ih i j (by simpa using hi)
        simpa [incr] using this

/-- Claim C16 (histogram totals) fails on the code: for the command line `-t d1 d2`
with `d1` holding one regular file and `d2` empty, the second report prints class
counts that sum to 1 next to the total 0, because `totalf` is reset for each
directory and `tam` is not; and for `-n d` with `d` holding one sub-directory that
cannot be opened, the report prints class counts that sum to 1 next to the total 2. -/
theorem main_second_report_totals :
    (main true false [oneFileDir, emptyDir] emptyDir).map
        (fun r => r.tSection.map fun s => (classSum s, printedTotal s))
      = [some (1, 1), some (1, 0)] ∧
    (main false true [lockedSubdirDir] emptyDir).map
        (fun r => r.nSection.map fun s => (classSum s, printedTotal s))
      = [some (1, 2)] := by
  decide

/-- Claim C17 (histogram class boundaries) fails on the code: a directory with exactly
100 entries is counted in the last class, the one printed as `More than 100`. -/
theorem cnt_num_hundred :
    countEntries (plainFiles 100) 0 = 100 ∧
    (cnt_num (.mk true (plainFiles 100)) initial).2.num = [0, 0, 0, 0, 0, 0, 0, 0, 0, 0, 1] ∧
    ¬ (countEntries (plainFiles 100) 0 > 100) := by
  decide

/-- Claim C17 as amended: for a directory with `nf` entries other than `.` and `..`,
`cnt_num` adds one to exactly one class: the last class if and only if `100 ≤ nf`, and
otherwise the class `i = nf / 10`, whose printed range `[10*i, 10*i+10]` contains `nf`
(indeed `10*i ≤ nf < 10*i + 10`). -/
theorem cnt_num_class (entries : Entries) (g : Globals) (hnum : g.num.length = 11) :
    (cnt_num (.mk true entries) g).1 = 0 ∧
    (∀ j : Nat, (cnt_num (.mk true entries) g).2.num.getD j 0
      = g.num.getD j 0
        + (if j = (if 100 ≤ countEntries entries 0 then 10 else countEntries entries 0 / 10)
            then 1 else 0)) ∧
    (countEntries entries 0 < 100 →
      countEntries entries 0 / 10 < 10 ∧
      (rangeRows (cnt_num (.mk true entries) g).2.num).map (fun r => (r.1, r.2.1))
        = (List.range 10).map (fun (i : Nat) => (10 * (i : Int), 10 * (i : Int) + 10)) ∧
      10 * (countEntries entries 0 / 10) ≤ countEntries entries 0 ∧
      countEntries entries 0 < 10 * (countEntries entries 0 / 10) + 10) := by
  refine ⟨?_, ?_, ?_⟩
  · simp only [cnt_num, if_true]
    split <;> rfl
  · intro j
    by_cases h : 100 ≤ countEntries entries 0
    · have hn : ¬ countEntries entries 0 / 10 < 10 := by omega
      simp only [cnt_num, if_true, hn, if_false, h]
      exact incr_getD g.num 10 j (by omega)
    · have hn : countEntries entries 0 / 10 < 10 := by omega
      simp only [cnt_num, if_true, hn, h, if_false]
      exact incr_getD g.num _ j (by omega)
  · intro h
    refine ⟨by omega, ?_, by omega, by omega⟩
    simp [rangeRows, Function.comp_def]

theorem cnt_num_class_witness :
    initial.num.length = 11 ∧
    (cnt_num (.mk true (plainFiles 10)) initial).1 = 0 ∧
    (cnt_num (.mk true (plainFiles 10)) initial).2.num.getD 1 0 = 1 :=
  ⟨by decide, (cnt_num_class (plainFiles 10) initial (by decide)).1,
    (cnt_num_class (plainFiles 10) initial (by decide)).2.1 1⟩

end Distribution
